import Mathlib

/-!
Verification of the gotags tag-extraction core (gotags.go) against its
natural-language specification.

The program text is shallowly embedded: source bytes are modelled as
`List Char` (each `Char` standing for one byte of the ASCII input), the
parsed Go syntax tree (`go/ast`) is modelled by the inductive types below,
and the byte stream written to the output sink is the `List Char` returned
by each function.  Function and variable names follow the Go source
(`makeTag`, `goTags`, `structTypeTags`, `builtinEtags`, `systemEtags`,
`computeTags`, `etagsRe`, ...).
-/

namespace Gotags

/-- One `*ast.Ident` as used by `makeTag`: the identifier's text
(`name.Name`) and the 0-based byte offset of the identifier in the file
(`fset.File(pos).Offset(name.NamePos)`). -/
structure Ident where
  name : List Char
  offs : Nat
deriving DecidableEq, Repr

mutual
/-- The part of `ast.Expr` that `goTags` inspects: it type-switches on
`*ast.FuncType`, `*ast.InterfaceType` and `*ast.StructType`; every other
type expression is `otherType`. -/
inductive GoType : Type where
  | funcType : GoType
  | interfaceType (methods : List Field) : GoType
  | structType (fields : List Field) : GoType
  | otherType : GoType

/-- An `*ast.Field`: a list of names and a type expression. -/
inductive Field : Type where
  | mk (names : List Ident) (typ : GoType) : Field
end

def Field.names : Field → List Ident
  | .mk ns _ => ns

def Field.typ : Field → GoType
  | .mk _ t => t

/-- An `*ast.TypeSpec`: the declared type name and its type expression. -/
structure TypeSpec where
  name : Ident
  typ : GoType

/-- An `*ast.ValueSpec`: the declared names and the optional type
expression (`vs.Type` may be nil). -/
structure ValueSpec where
  names : List Ident
  typ : Option GoType

/-- A file-scope `ast.Decl` as dispatched by `goTags`: `*ast.FuncDecl`,
or an `*ast.GenDecl` with token `TYPE` (`typeDecl`), `VAR`
(`valueDecl true`) or `CONST` (`valueDecl false`); import declarations
and anything else fall into `otherDecl`. -/
inductive Decl : Type where
  | funcDecl (name : Ident)
  | typeDecl (specs : List TypeSpec)
  | valueDecl (isVar : Bool) (specs : List ValueSpec)
  | otherDecl

/-- An `*ast.File` as used by `goTags`: the package identifier `f.Name`
and the declaration list `f.Decls`. -/
structure GoFile where
  name : Ident
  decls : List Decl

/-- Go slice `t[a:b]`. -/
def listSlice (t : List Char) (a b : Nat) : List Char :=
  (t.drop a).take (b - a)

/-- The loop in `makeTag`:
`for offs > 0 && inputText[offs-1] != '\n' { offs-- }`. -/
def backToLineStart (text : List Char) : Nat → Nat
  | 0 => 0
  | n + 1 => if text[n]? = some '\n' then n + 1 else backToLineStart text n

/-- `fset.File(pos).Line(pos)`: the 1-based line number of the byte at
offset `p`, i.e. one more than the number of line feeds before it.  This
is what the `token.File` line table built by the scanner yields. -/
def lineOf (text : List Char) (p : Nat) : Nat :=
  1 + (text.take p).count '\n'

/-- Decimal rendering of `%d` for an unsigned value. -/
def natChars (n : Nat) : List Char :=
  Nat.toDigits 10 n

/-- The pattern computed by `makeTag`: the source text from the start of
the identifier's line (`backToLineStart`) through the end of the
identifier (`inputText[offs:end]`). -/
def makeTagPattern (text : List Char) (id : Ident) : List Char :=
  listSlice text (backToLineStart text id.offs) (id.offs + id.name.length)

/-- `makeTag`: emits `LF pattern DEL name SOH line "," offset` where
`offset` is the byte offset of the line start. -/
def makeTag (text : List Char) (id : Ident) : List Char :=
  ['\x0A'] ++ makeTagPattern text id ++ ['\x7F'] ++ id.name ++ ['\x01'] ++
    natChars (lineOf text id.offs) ++ [','] ++ natChars (backToLineStart text id.offs)

/-- `structTypeTags`: tags every field name of a struct type, recursing
into fields whose own type is again a struct literal. -/
def structTypeTags (text : List Char) : List Field → List Char
  | [] => []
  | .mk names typ :: rest =>
      (names.map (makeTag text)).flatten ++
      (match typ with
       | .structType inner => structTypeTags text inner
       | _ => []) ++
      structTypeTags text rest

/-- The interface arm of `goTags`: for each field of `it.Methods.List`
whose type is a `*ast.FuncType`, tag `field.Names[0]`.  (In a tree the
parser accepts, a method field always has exactly one name; an empty name
list, on which the Go code would panic, yields no tag here.) -/
def interfaceMethodTags (text : List Char) (methods : List Field) : List Char :=
  (methods.map (fun f =>
    match f with
    | .mk (n :: _) .funcType => makeTag text n
    | _ => [])).flatten

/-- One `*ast.TypeSpec` inside a `token.TYPE` `GenDecl`: tag the type
name, then interface methods, or struct fields when `members` is set. -/
def typeSpecTags (members : Bool) (text : List Char) (ts : TypeSpec) : List Char :=
  makeTag text ts.name ++
  (match ts.typ with
   | .interfaceType methods => interfaceMethodTags text methods
   | .structType fields => if members then structTypeTags text fields else []
   | _ => [])

/-- One `*ast.ValueSpec` inside a `token.VAR`/`token.CONST` `GenDecl`:
tag every name; for `var` specs whose type is a struct literal, also tag
the struct members when `members` is set. -/
def valueSpecTags (members isVar : Bool) (text : List Char) (vs : ValueSpec) : List Char :=
  (vs.names.map (makeTag text)).flatten ++
  (if isVar then
     match vs.typ with
     | some (.structType fields) => if members then structTypeTags text fields else []
     | _ => []
   else [])

/-- The per-declaration dispatch of the loop body in `goTags`. -/
def declTags (members : Bool) (text : List Char) : Decl → List Char
  | .funcDecl name => makeTag text name
  | .typeDecl specs => (specs.map (typeSpecTags members text)).flatten
  | .valueDecl isVar specs => (specs.map (valueSpecTags members isVar text)).flatten
  | .otherDecl => []

/-- `goTags`: tag the package identifier, then every declaration in
source order. -/
def goTags (members : Bool) (text : List Char) (f : GoFile) : List Char :=
  makeTag text f.name ++ (f.decls.map (declTags members text)).flatten

/-- The character class `\s` of Go's regexp package:
space, tab, line feed, form feed, carriage return. -/
def isSpaceChar (c : Char) : Bool :=
  c = ' ' || c = '\t' || c = '\n' || c = '\x0C' || c = '\x0D'

/-- The `identCharSet` class `(?:\pL|\pN)` (a letter or a number),
restricted to the ASCII inputs the embedding models. -/
def isIdentChar (c : Char) : Bool :=
  c.isAlpha || c.isDigit

/-- The tail `\s+(identCharSet+)` of `etagsRe`: one or more whitespace
characters followed by one or more identifier characters.  Returns the
consumed text and the identifier submatch.  Both repetitions are greedy;
since the two classes are disjoint the maximal-munch scan below is the
unique match of the backtracking semantics. -/
def matchSpIdent (r : List Char) : Option (List Char × List Char) :=
  let sp := r.takeWhile isSpaceChar
  let r2 := r.dropWhile isSpaceChar
  let nm := r2.takeWhile isIdentChar
  if sp.isEmpty || nm.isEmpty then none
  else some (sp ++ nm, nm)

/-- The optional receiver clause `\s*\([^)]+\)` of the `func` branch of
`etagsRe`.  Returns the consumed text and the rest of the line.  `\s*` is
greedy and must stop exactly at `(`, and `[^)]+` must stop exactly at the
first `)`, so the scan is deterministic. -/
def matchReceiver (r : List Char) : Option (List Char × List Char) :=
  let sp := r.takeWhile isSpaceChar
  let r2 := r.dropWhile isSpaceChar
  if r2.head? = some '(' then
    let r3 := r2.tail
    let body := r3.takeWhile (fun c => c != ')')
    let r4 := r3.dropWhile (fun c => c != ')')
    if r4.head? = some ')' then
      if body.isEmpty then none else some (sp ++ ('(' :: body) ++ [')'], r4.tail)
    else none
  else none

/-- The `func(?:\s*\([^)]+\))?\s+(identCharSet+)` branch of `etagsRe`.
The optional receiver group is greedy, so the receiver is tried first;
when the receiver group matches, the receiver-less alternative can never
match (after `func` the line continues with `\s*` then `(`, never with
`\s+` then an identifier character), so committing to it is faithful to
the leftmost-first backtracking semantics of Go's regexp. -/
def matchFunc (l : List Char) : Option (List Char × List Char) :=
  if ("func".toList).isPrefixOf l then
    let r := l.drop 4
    match matchReceiver r with
    | some (rc, r2) =>
      (match matchSpIdent r2 with
       | some (c, nm) => some ("func".toList ++ rc ++ c, nm)
       | none => none)
    | none =>
      (match matchSpIdent r with
       | some (c, nm) => some ("func".toList ++ c, nm)
       | none => none)
  else none

/-- A keyword branch of `etagsRe` without receiver:
`kw\s+(identCharSet+)` anchored at the start of the line. -/
def matchPlainKw (kw l : List Char) : Option (List Char × List Char) :=
  if kw.isPrefixOf l then
    match matchSpIdent (l.drop kw.length) with
    | some (c, nm) => some (kw ++ c, nm)
    | none => none
  else none

/-- `etagsRe.FindStringSubmatch` on one line: the anchored pattern
`^(?:((?:package|func(?:\s*\([^)]+\))?|type|var|const)\s+(identCharSet+)))`.
Returns `(m[1], m[2])`: the whole matched text (keyword, optional
receiver, whitespace, identifier) and the identifier.  The five keyword
alternatives start with five distinct letters, so trying them in the
regexp's order commits exactly as leftmost-first matching does. -/
def etagsMatch (l : List Char) : Option (List Char × List Char) :=
  match matchPlainKw ("package".toList) l with
  | some r => some r
  | none =>
    match matchFunc l with
    | some r => some r
    | none =>
      match matchPlainKw ("type".toList) l with
      | some r => some r
      | none =>
        match matchPlainKw ("var".toList) l with
        | some r => some r
        | none => matchPlainKw ("const".toList) l

/-- The list of declaration keywords of `etagsRe`. -/
def etagsKeywords : List (List Char) :=
  ["package".toList, "func".toList, "type".toList, "var".toList, "const".toList]

/-- The body of the loop in `builtinEtags` for the line with 0-based
index `il.1`: on a regexp match emit
`LF m[1] DEL m[2] SOH lineno+1 ","` (no offset field), otherwise
nothing. -/
def builtinLine (il : Nat × List Char) : List Char :=
  match etagsMatch il.2 with
  | some (pat, nm) =>
      ['\x0A'] ++ pat ++ ['\x7F'] ++ nm ++ ['\x01'] ++ natChars (il.1 + 1) ++ [',']
  | none => []

/-- `builtinEtags`: split the text on line feeds (`strings.Split`) and
scan each line with `etagsRe`. -/
def builtinEtags (text : List Char) : List Char :=
  (((text.splitOn '\x0A').enum).map builtinLine).flatten

/-- `path.Ext`: the suffix of the name starting at the last dot that
follows the last slash, empty when there is none. -/
def pathExtRev (acc : List Char) : List Char → List Char
  | [] => []
  | c :: rest =>
    if c = '/' then []
    else if c = '.' then '.' :: acc
    else pathExtRev (c :: acc) rest

def pathExt (s : List Char) : List Char :=
  pathExtRev [] s.reverse

/-- The configuration the core reads: the `members` flag (`--no-members`
clears it), the `quiet` flag, and the delegate program path
(`systemEtagsCommand`, empty disables delegation). -/
structure Config where
  members : Bool
  quiet : Bool
  systemEtagsCommand : List Char

/-- The two collaborators `computeTags` consults per file:
`os.ReadFile` (`none` models a read error) and `parser.ParseFile`
(`none` models a parse failure, `some f` a successful parse). -/
structure FS where
  read : List Char → Option (List Char)
  parse : List Char → List Char → Option GoFile

/-- The outcome of `exec.Cmd.Run` for the delegate subprocess: captured
standard output and standard error, and on failure the exit status
(`some c` for an `exec.ExitError` with code `c`, `none` when the process
could not be started and no status exists). -/
inductive RunResult : Type where
  | ok (stdout stderr : List Char)
  | fail (stdout stderr : List Char) (status : Option Nat)

def runStdout : RunResult → List Char
  | .ok out _ => out
  | .fail out _ _ => out

/-- The argument vector built by `systemEtags`:
`-o - -` plus `--no-members` when members are disabled. -/
def etagsArgs (cfg : Config) : List (List Char) :=
  ["-o".toList, "-".toList, "-".toList] ++
    (if cfg.members then [] else ["--no-members".toList])

/-- The exit status `systemEtags` passes to `os.Exit` on a failed run:
the subprocess's exit status when it is an `exec.ExitError` with a
nonzero code, and the fixed status 1 otherwise (launch failure, or no
usable status). -/
def delegateExitStatus (st : Option Nat) : Nat :=
  match st with
  | some c => if c = 0 then 1 else c
  | none => 1

/-- `systemEtags`: run the delegate once, feeding it the newline-joined
batch on standard input; copy its standard output to the output sink;
on failure exit with the subprocess's nonzero status when there is one,
otherwise with the fixed status 1.  Returns the bytes written and the
exit status (`none` means the run continues). -/
def systemEtags (cfg : Config) (prog : List (List Char) → List Char → RunResult)
    (names : List (List Char)) : List Char × Option Nat :=
  match prog (etagsArgs cfg) (List.intercalate ['\x0A'] names) with
  | .ok out _ => (out, none)
  | .fail out _ st => (out, some (delegateExitStatus st))

/-- The section header `FF LF filename ",0"` that `computeTags` writes
for every native file before reading it. -/
def sectionHeader (n : List Char) : List Char :=
  ['\x0C', '\x0A'] ++ n ++ [',', '0']

/-- The body of the `computeTags` loop for one native (`.go`) file:
write the section header; on a read error skip the file (note: the
`continue` also skips the terminating line feed); otherwise run `goTags`
on a successful parse or `builtinEtags` on a parse failure, then write
the terminating line feed. -/
def processNative (cfg : Config) (fs : FS) (n : List Char) : List Char :=
  sectionHeader n ++
    (match fs.read n with
     | none => []
     | some text =>
       (match fs.parse n text with
        | some f => goTags cfg.members text f
        | none => builtinEtags text) ++ ['\x0A'])

/-- The classification loop of `computeTags`: native files are processed
in order, all other files are accumulated (in order) for the delegate. -/
def computeTagsLoop (cfg : Config) (fs : FS) : List (List Char) → List Char × List (List Char)
  | [] => ([], [])
  | n :: rest =>
    if pathExt n == ".go".toList then
      (processNative cfg fs n ++ (computeTagsLoop cfg fs rest).1, (computeTagsLoop cfg fs rest).2)
    else
      ((computeTagsLoop cfg fs rest).1, n :: (computeTagsLoop cfg fs rest).2)

/-- The bytes written to the output sink and the exit status of the whole
run (`none` when the run finishes normally). -/
structure RunOutcome where
  output : List Char
  exitCode : Option Nat
deriving DecidableEq, Repr

/-- `computeTags`: process every native file in input order, then, when
unhandled files were collected and a delegate is configured, invoke the
delegate once on the whole batch. -/
def computeTags (cfg : Config) (fs : FS) (prog : List (List Char) → List Char → RunResult)
    (inputs : List (List Char)) : RunOutcome :=
  let out := (computeTagsLoop cfg fs inputs).1
  let unhandled := (computeTagsLoop cfg fs inputs).2
  if !unhandled.isEmpty && !cfg.systemEtagsCommand.isEmpty then
    RunOutcome.mk (out ++ (systemEtags cfg prog unhandled).1) (systemEtags cfg prog unhandled).2
  else
    RunOutcome.mk out none

/-! Spec-side enumeration of the file-scope declared names, written from
the specification's wording ("the package identifier, each function/method
name, each type name, each method name nested directly inside a file-scope
interface type, each struct field name when member-tagging is enabled —
for each type or variable declared as a struct — and each
variable/constant name including every name of a multi-name declaration"),
to be compared with the tags the extractor emits. -/

/-- Spec-side: every field name of a struct, recursively including the
fields of nested struct literals. -/
def structFieldIdents : List Field → List Ident
  | [] => []
  | .mk names typ :: rest =>
      names ++
      (match typ with
       | .structType inner => structFieldIdents inner
       | _ => []) ++
      structFieldIdents rest

/-- Spec-side: the method names nested directly inside an interface type
(one name per method signature; embedded interfaces have no name of their
own and contribute nothing). -/
def interfaceMethodIdents : List Field → List Ident
  | [] => []
  | .mk (n :: _) .funcType :: rest => n :: interfaceMethodIdents rest
  | _ :: rest => interfaceMethodIdents rest

/-- Spec-side: the names declared by one type spec: the type name, the
methods when it is an interface, its field names when it is a struct and
member-tagging is enabled. -/
def typeSpecIdents (members : Bool) (ts : TypeSpec) : List Ident :=
  ts.name ::
  (match ts.typ with
   | .interfaceType methods => interfaceMethodIdents methods
   | .structType fields => if members then structFieldIdents fields else []
   | _ => [])

/-- Spec-side: the names declared by one var/const spec: every name of
the (possibly multi-name) declaration, and for a variable declared as a
struct the field names when member-tagging is enabled. -/
def valueSpecIdents (members isVar : Bool) (vs : ValueSpec) : List Ident :=
  vs.names ++
  (if isVar then
     match vs.typ with
     | some (.structType fields) => if members then structFieldIdents fields else []
     | _ => []
   else [])

/-- Spec-side: the names declared by one file-scope declaration. -/
def declIdents (members : Bool) : Decl → List Ident
  | .funcDecl name => [name]
  | .typeDecl specs => (specs.map (typeSpecIdents members)).flatten
  | .valueDecl isVar specs => (specs.map (valueSpecIdents members isVar)).flatten
  | .otherDecl => []

/-- Spec-side: every file-scope declared name of a parsed file, in source
order: the package identifier followed by the names of each
declaration. -/
def declaredIdents (members : Bool) (f : GoFile) : List Ident :=
  f.name :: (f.decls.map (declIdents members)).flatten

/-! Concrete fixtures used by the witness theorems. -/

/-- A tiny source file: `package m\nvar v1, v2 int\n`. -/
def text0 : List Char := "package m\nvar v1, v2 int\n".toList

/-- The syntax tree of `text0` (identifier offsets as `go/parser`
reports them: `m` at byte 8, `v1` at byte 14, `v2` at byte 18). -/
def file0 : GoFile :=
  GoFile.mk (Ident.mk "m".toList 8)
    [Decl.valueDecl true [ValueSpec.mk [Ident.mk "v1".toList 14, Ident.mk "v2".toList 18] none]]

/-- A default configuration: members on, warnings on, delegate at its
default path. -/
def cfg0 : Config := Config.mk true false ("/usr/bin/etags".toList)

/-- A configuration with delegation disabled (`--etags ""`). -/
def cfgNoDelegate : Config := Config.mk true false []

/-- A file system on which every file reads as `text0` and parses as
`file0`. -/
def fs0 : FS := FS.mk (fun _ => some text0) (fun _ _ => some file0)

/-- A file system on which no file can be read. -/
def fsUnreadable : FS := FS.mk (fun _ => none) (fun _ _ => none)

/-- A file system on which every file reads as `text0` and the parser
rejects every file. -/
def fsParseFail : FS := FS.mk (fun _ => some text0) (fun _ _ => none)

/-- A delegate that succeeds and writes nothing. -/
def progSilent : List (List Char) → List Char → RunResult := fun _ _ => RunResult.ok [] []

/-- A delegate that writes `OUT` and fails with exit status 3. -/
def progFail3 : List (List Char) → List Char → RunResult :=
  fun _ _ => RunResult.fail ("OUT".toList) [] (some 3)

/-- The backward scan never moves forward. -/
theorem backToLineStart_le (text : List Char) : ∀ p, backToLineStart text p ≤ p := by
  intro p
  induction p with
  | zero => exact Nat.le_refl 0
  | succ n ih =>
    simp only [backToLineStart]
    split
    · exact Nat.le_refl _
    · exact Nat.le_trans ih (Nat.le_succ n)

/-- The backward scan stops at the file start or right after a line
feed. -/
theorem backToLineStart_eq_zero_or_after_nl (text : List Char) :
    ∀ p, backToLineStart text p = 0 ∨ text[backToLineStart text p - 1]? = some '\n' := by
  intro p
  induction p with
  | zero => exact Or.inl rfl
  | succ n ih =>
    simp only [backToLineStart]
    split
    · next h => exact Or.inr (by simpa using h)
    · exact ih

/-- No line feed occurs between the stop position of the backward scan
and the start position. -/
theorem backToLineStart_no_nl (text : List Char) :
    ∀ p k, backToLineStart text p ≤ k → k < p → ¬ text[k]? = some '\n' := by
  intro p
  induction p with
  | zero => exact fun k _ h2 => absurd h2 (Nat.not_lt_zero k)
  | succ n ih =>
    intro k h1 h2
    simp only [backToLineStart] at h1
    split at h1
    · omega
    · next h =>
      rcases Nat.lt_succ_iff_lt_or_eq.mp h2 with h' | h'
      · exact ih k h1 h'
      · exact h' ▸ h

/-- Splitting a Go slice `t[a:c]` at an intermediate index `b`. -/
theorem listSlice_append (t : List Char) {a b c : Nat} (h1 : a ≤ b) (h2 : b ≤ c) :
    listSlice t a c = listSlice t a b ++ listSlice t b c := by
  unfold listSlice
  have hc : c - a = (b - a) + (c - b) := by omega
  rw [hc, List.take_add, List.drop_drop]
  have hb : a + (b - a) = b := by omega
  rw [hb]

/-- Every character of a slice occurs in the sliced list at an index
inside the slice bounds. -/
theorem mem_listSlice (t : List Char) {a b : Nat} {c : Char} (h : c ∈ listSlice t a b) :
    ∃ k, a ≤ k ∧ k < b ∧ t[k]? = some c := by
  unfold listSlice at h
  obtain ⟨i, hi⟩ := List.mem_iff_getElem?.mp h
  have hlt : i < b - a := by
    by_contra hge
    rw [List.getElem?_take_eq_none (Nat.le_of_not_lt hge)] at hi
    exact Option.noConfusion hi
  rw [List.getElem?_take_of_lt hlt, List.getElem?_drop] at hi
  exact ⟨a + i, Nat.le_add_right a i, by omega, hi⟩

/-- Prepending the same list preserves the prefix relation. -/
theorem append_left_isPrefix {x l r : List Char} (h : l <+: r) : x ++ l <+: x ++ r := by
  obtain ⟨t, ht⟩ := h
  exact ⟨t, by rw [List.append_assoc, ht]⟩

/-- What a successful `matchSpIdent` returns: the consumed text is the
whitespace run followed by the identifier, it is a prefix of the input,
and the identifier is nonempty. -/
theorem matchSpIdent_shape {r c nm : List Char} (h : matchSpIdent r = some (c, nm)) :
    c = r.takeWhile isSpaceChar ++ nm ∧ c <+: r ∧ nm ≠ [] := by
  simp only [matchSpIdent] at h
  split at h
  · exact absurd h (by simp)
  · next hb =>
    rw [Option.some_inj, Prod.mk.injEq] at h
    obtain ⟨hc, hnm⟩ := h
    have hpre : r.takeWhile isSpaceChar ++ (r.dropWhile isSpaceChar).takeWhile isIdentChar <+: r := by
      have h1 : (r.dropWhile isSpaceChar).takeWhile isIdentChar <+: r.dropWhile isSpaceChar :=
        List.takeWhile_prefix _
      have h2 := append_left_isPrefix (x := r.takeWhile isSpaceChar) h1
      rwa [List.takeWhile_append_dropWhile] at h2
    refine ⟨by rw [← hc, ← hnm], hc ▸ hpre, ?_⟩
    intro hnil
    rw [hnil] at hnm
    simp [hnm] at hb

/-- What a successful `matchReceiver` returns: the consumed receiver
text followed by the returned rest reassembles the input. -/
theorem matchReceiver_split {r rc rest : List Char} (h : matchReceiver r = some (rc, rest)) :
    rc ++ rest = r := by
  simp only [matchReceiver] at h
  split at h
  · next hpar =>
    split at h
    · next hclose =>
      split at h
      · exact absurd h (by simp)
      · rw [Option.some_inj, Prod.mk.injEq] at h
        obtain ⟨hrc, hrest⟩ := h
        have h2 : r.dropWhile isSpaceChar = '(' :: (r.dropWhile isSpaceChar).tail := by
          cases hd : r.dropWhile isSpaceChar with
          | nil => rw [hd] at hpar; simp at hpar
          | cons a t => rw [hd] at hpar; simp at hpar; simp [hpar]
        set r3 := (r.dropWhile isSpaceChar).tail with hr3
        have h3 : (r3.dropWhile (fun c => c != ')')) = ')' :: (r3.dropWhile (fun c => c != ')')).tail := by
          cases hd : r3.dropWhile (fun c => c != ')') with
          | nil => rw [hd] at hclose; simp at hclose
          | cons a t => rw [hd] at hclose; simp at hclose; simp [hclose]
        rw [← hrc, ← hrest]
        calc (r.takeWhile isSpaceChar ++ ('(' :: r3.takeWhile (fun c => c != ')')) ++ [')'])
              ++ (r3.dropWhile (fun c => c != ')')).tail
            = r.takeWhile isSpaceChar ++ '(' ::
                (r3.takeWhile (fun c => c != ')') ++ ')' :: (r3.dropWhile (fun c => c != ')')).tail) := by
              simp
          _ = r.takeWhile isSpaceChar ++ '(' ::
                (r3.takeWhile (fun c => c != ')') ++ r3.dropWhile (fun c => c != ')')) := by
              rw [← h3]
          _ = r.takeWhile isSpaceChar ++ '(' :: r3 := by
              rw [List.takeWhile_append_dropWhile]
          _ = r.takeWhile isSpaceChar ++ r.dropWhile isSpaceChar := by
              rw [← h2]
          _ = r := List.takeWhile_append_dropWhile _ _
    · exact absurd h (by simp)
  · exact absurd h (by simp)

/-- What a successful `matchPlainKw` returns: the matched text starts
with the keyword at column 0, ends with the identifier submatch, and is
a prefix of the line. -/
theorem matchPlainKw_shape {kw l pat nm : List Char} (h : matchPlainKw kw l = some (pat, nm)) :
    (∃ pre, pat = pre ++ nm) ∧ pat <+: l ∧ nm ≠ [] ∧ kw <+: pat := by
  simp only [matchPlainKw] at h
  split at h
  · next hp =>
    split at h
    · next c nm' hm =>
      rw [Option.some_inj, Prod.mk.injEq] at h
      obtain ⟨hpat, hnm⟩ := h
      subst hnm
      obtain ⟨hc, hcpre, hne⟩ := matchSpIdent_shape hm
      obtain ⟨rest, hrest⟩ := List.isPrefixOf_iff_prefix.mp hp
      have hdrop : l.drop kw.length = rest := by
        rw [← hrest, List.drop_left]
      refine ⟨⟨kw ++ (l.drop kw.length).takeWhile isSpaceChar,
               by rw [← hpat, hc, List.append_assoc]⟩, ?_, hne, ?_⟩
      · rw [← hpat, ← hrest]
        rw [hdrop] at hcpre
        exact append_left_isPrefix hcpre
      · exact ⟨c, hpat⟩
    · exact absurd h (by simp)
  · exact absurd h (by simp)

/-- What a successful `matchFunc` returns: the matched text starts with
`func` at column 0, ends with the identifier submatch, and is a prefix
of the line. -/
theorem matchFunc_shape {l pat nm : List Char} (h : matchFunc l = some (pat, nm)) :
    (∃ pre, pat = pre ++ nm) ∧ pat <+: l ∧ nm ≠ [] ∧ "func".toList <+: pat := by
  simp only [matchFunc] at h
  split at h
  · next hp =>
    obtain ⟨rest, hrest⟩ := List.isPrefixOf_iff_prefix.mp hp
    have hdrop : l.drop 4 = rest := by
      rw [← hrest]
      exact List.drop_left ("func".toList) rest
    split at h
    · next rc r2 hr =>
      split at h
      · next c nm' hm =>
        rw [Option.some_inj, Prod.mk.injEq] at h
        obtain ⟨hpat, hnm⟩ := h
        subst hnm
        obtain ⟨hc, hcpre, hne⟩ := matchSpIdent_shape hm
        have hsplit : rc ++ r2 = l.drop 4 := matchReceiver_split hr
        refine ⟨⟨"func".toList ++ rc ++ r2.takeWhile isSpaceChar, ?_⟩, ?_, hne, ?_⟩
        · rw [← hpat, hc]
          simp [List.append_assoc]
        · rw [← hpat, ← hrest, ← hdrop, ← hsplit]
          have h1 : rc ++ c <+: rc ++ r2 := append_left_isPrefix hcpre
          have h2 : "func".toList ++ (rc ++ c) <+: "func".toList ++ (rc ++ r2) :=
            append_left_isPrefix h1
          simpa [List.append_assoc] using h2
        · exact ⟨rc ++ c, by rw [← hpat, List.append_assoc]⟩
      · exact absurd h (by simp)
    · next hr =>
      split at h
      · next c nm' hm =>
        rw [Option.some_inj, Prod.mk.injEq] at h
        obtain ⟨hpat, hnm⟩ := h
        subst hnm
        obtain ⟨hc, hcpre, hne⟩ := matchSpIdent_shape hm
        refine ⟨⟨"func".toList ++ (l.drop 4).takeWhile isSpaceChar,
                 by rw [← hpat, hc, List.append_assoc]⟩, ?_, hne, ?_⟩
        · rw [← hpat, ← hrest]
          rw [hdrop] at hcpre
          exact append_left_isPrefix hcpre
        · exact ⟨c, hpat⟩
      · exact absurd h (by simp)
  · exact absurd h (by simp)

/-- What a successful `etagsMatch` returns: the matched text `m[1]` ends
with the identifier submatch `m[2]`, is a prefix of the line (the match
is anchored at column 0), the submatch is nonempty, and the match begins
with one of the five declaration keywords, at column 0. -/
theorem etagsMatch_shape {l pat nm : List Char} (h : etagsMatch l = some (pat, nm)) :
    (∃ pre, pat = pre ++ nm) ∧ pat <+: l ∧ nm ≠ [] ∧
      ∃ kw, kw ∈ etagsKeywords ∧ kw <+: pat := by
  simp only [etagsMatch] at h
  split at h
  · next r1 hm =>
    obtain ⟨h1, h2, h3, h4⟩ := matchPlainKw_shape (hm.trans h)
    exact ⟨h1, h2, h3, "package".toList, by simp [etagsKeywords], h4⟩
  · next hm1 =>
    split at h
    · next r2 hm =>
      obtain ⟨h1, h2, h3, h4⟩ := matchFunc_shape (hm.trans h)
      exact ⟨h1, h2, h3, "func".toList, by simp [etagsKeywords], h4⟩
    · next hm2 =>
      split at h
      · next r3 hm =>
        obtain ⟨h1, h2, h3, h4⟩ := matchPlainKw_shape (hm.trans h)
        exact ⟨h1, h2, h3, "type".toList, by simp [etagsKeywords], h4⟩
      · next hm3 =>
        split at h
        · next r4 hm =>
          obtain ⟨h1, h2, h3, h4⟩ := matchPlainKw_shape (hm.trans h)
          exact ⟨h1, h2, h3, "var".toList, by simp [etagsKeywords], h4⟩
        · next hm4 =>
          obtain ⟨h1, h2, h3, h4⟩ := matchPlainKw_shape h
          exact ⟨h1, h2, h3, "const".toList, by simp [etagsKeywords], h4⟩

/-- `structTypeTags` emits exactly one tag per field name enumerated by
`structFieldIdents`, in order. -/
theorem structTypeTags_eq_map (text : List Char) :
    ∀ fs : List Field, structTypeTags text fs = ((structFieldIdents fs).map (makeTag text)).flatten := by
  intro fs
  induction fs using structTypeTags.induct text with
  | case1 => rw [structTypeTags.eq_1, structFieldIdents]; rfl
  | case2 names typ rest ih1 ih2 =>
    cases typ with
    | structType inner =>
      have ih1' : structTypeTags text inner = ((structFieldIdents inner).map (makeTag text)).flatten := ih1
      rw [structTypeTags.eq_def, structFieldIdents.eq_def]
      dsimp only []
      simp [ih1', ih2, List.map_append, List.flatten_append, List.append_assoc]
    | funcType =>
      rw [structTypeTags.eq_def, structFieldIdents.eq_def]
      dsimp only []
      simp [ih2, List.map_append, List.flatten_append, List.append_assoc]
    | interfaceType ms =>
      rw [structTypeTags.eq_def, structFieldIdents.eq_def]
      dsimp only []
      simp [ih2, List.map_append, List.flatten_append, List.append_assoc]
    | otherType =>
      rw [structTypeTags.eq_def, structFieldIdents.eq_def]
      dsimp only []
      simp [ih2, List.map_append, List.flatten_append, List.append_assoc]

/-- `interfaceMethodTags` emits exactly one tag per method name
enumerated by `interfaceMethodIdents`, in order. -/
theorem interfaceMethodTags_eq_map (text : List Char) :
    ∀ ms : List Field,
      interfaceMethodTags text ms = ((interfaceMethodIdents ms).map (makeTag text)).flatten := by
  intro ms
  induction ms with
  | nil => rfl
  | cons f rest ih =>
    obtain ⟨names, typ⟩ := f
    cases names with
    | nil =>
      cases typ <;> simp [interfaceMethodTags, interfaceMethodIdents, ih] <;>
        simpa [interfaceMethodTags] using ih
    | cons n ns =>
      cases typ <;> simp [interfaceMethodTags, interfaceMethodIdents, ih] <;>
        simpa [interfaceMethodTags] using ih

/-- `typeSpecTags` emits exactly one tag per name enumerated by
`typeSpecIdents`, in order. -/
theorem typeSpecTags_eq_map (members : Bool) (text : List Char) (ts : TypeSpec) :
    typeSpecTags members text ts = ((typeSpecIdents members ts).map (makeTag text)).flatten := by
  obtain ⟨name, typ⟩ := ts
  cases typ with
  | interfaceType ms =>
    simp [typeSpecTags, typeSpecIdents, interfaceMethodTags_eq_map]
  | structType fs =>
    cases members <;> simp [typeSpecTags, typeSpecIdents, structTypeTags_eq_map]
  | funcType => simp [typeSpecTags, typeSpecIdents]
  | otherType => simp [typeSpecTags, typeSpecIdents]

/-- `valueSpecTags` emits exactly one tag per name enumerated by
`valueSpecIdents`, in order. -/
theorem valueSpecTags_eq_map (members isVar : Bool) (text : List Char) (vs : ValueSpec) :
    valueSpecTags members isVar text vs = ((valueSpecIdents members isVar vs).map (makeTag text)).flatten := by
  obtain ⟨names, typ⟩ := vs
  cases isVar with
  | false => simp [valueSpecTags, valueSpecIdents]
  | true =>
    cases typ with
    | none => simp [valueSpecTags, valueSpecIdents]
    | some t =>
      cases t with
      | structType fs =>
        cases members <;> simp [valueSpecTags, valueSpecIdents, structTypeTags_eq_map]
      | funcType => simp [valueSpecTags, valueSpecIdents]
      | interfaceType ms => simp [valueSpecTags, valueSpecIdents]
      | otherType => simp [valueSpecTags, valueSpecIdents]

/-- `declTags` emits exactly one tag per name enumerated by
`declIdents`, in order. -/
theorem declTags_eq_map (members : Bool) (text : List Char) (d : Decl) :
    declTags members text d = ((declIdents members d).map (makeTag text)).flatten := by
  cases d with
  | funcDecl name => simp [declTags, declIdents]
  | typeDecl specs =>
    induction specs with
    | nil => rfl
    | cons s rest ih =>
      simp [declTags, declIdents, typeSpecTags_eq_map, List.map_append, List.flatten_append] at ih ⊢
      exact ih
  | valueDecl isVar specs =>
    induction specs with
    | nil => rfl
    | cons s rest ih =>
      simp [declTags, declIdents, valueSpecTags_eq_map, List.map_append, List.flatten_append] at ih ⊢
      exact ih
  | otherDecl => rfl

/-- `goTags` emits exactly one tag per declared name enumerated by
`declaredIdents`, in order. -/
theorem goTags_eq_map (members : Bool) (text : List Char) (f : GoFile) :
    goTags members text f = ((declaredIdents members f).map (makeTag text)).flatten := by
  obtain ⟨name, decls⟩ := f
  simp only [goTags, declaredIdents, List.map_cons, List.flatten_cons]
  congr 1
  induction decls with
  | nil => rfl
  | cons d rest ih =>
    simp [declTags_eq_map, List.map_append, List.flatten_append, ih]

/-- Unrolling the classification loop: the emitted bytes are the
concatenated sections of the native files in input order, and the
unhandled batch is the non-native files in input order. -/
theorem computeTagsLoop_eq (cfg : Config) (fs : FS) :
    ∀ inputs : List (List Char),
      computeTagsLoop cfg fs inputs =
        (((inputs.filter (fun n => pathExt n == ".go".toList)).map (processNative cfg fs)).flatten,
          inputs.filter (fun n => !(pathExt n == ".go".toList))) := by
  intro inputs
  induction inputs with
  | nil => rfl
  | cons n rest ih =>
    by_cases hx : pathExt n = ['.', 'g', 'o'] <;>
      simp [computeTagsLoop, List.filter_cons, hx, ih]

/-- The bytes `systemEtags` writes are exactly the delegate's captured
standard output, also on failure. -/
theorem systemEtags_fst (cfg : Config) (prog : List (List Char) → List Char → RunResult)
    (names : List (List Char)) :
    (systemEtags cfg prog names).1 =
      runStdout (prog (etagsArgs cfg) (List.intercalate ['\x0A'] names)) := by
  unfold systemEtags runStdout
  cases prog (etagsArgs cfg) (List.intercalate ['\x0A'] names) <;> rfl

/-- Decomposition of the whole run's output: the native sections in
input order, followed by the delegate's standard output when a non-empty
batch exists and delegation is configured. -/
theorem computeTags_output_eq (cfg : Config) (fs : FS)
    (prog : List (List Char) → List Char → RunResult) (inputs : List (List Char)) :
    (computeTags cfg fs prog inputs).output =
      (((inputs.filter (fun n => pathExt n == ".go".toList)).map (processNative cfg fs)).flatten) ++
      (if !(inputs.filter (fun n => !(pathExt n == ".go".toList))).isEmpty
          && !cfg.systemEtagsCommand.isEmpty
       then runStdout (prog (etagsArgs cfg)
              (List.intercalate ['\x0A'] (inputs.filter (fun n => !(pathExt n == ".go".toList)))))
       else []) := by
  simp only [computeTags, computeTagsLoop_eq]
  split
  · next h => simp [h, systemEtags_fst]
  · next h => simp [h]

/-- C1: for every input file with extension .go whose text the parser
accepts, every file-scope declared name — the package identifier, each
function/method name, each type name (including names inside grouped type
lists and types with type-parameter lists), each method name nested
directly inside a file-scope interface type, each struct field name when
member-tagging is enabled, and each variable/constant name including
every name of a multi-name declaration — appears exactly once as a tag in
that file's section: the section is the header followed by the
concatenation of exactly one `makeTag` record per declared name, in
declaration order, followed by the terminating line feed. -/
theorem c1_every_declared_name_tagged_once (cfg : Config) (fs : FS) (n text : List Char)
    (f : GoFile) (hread : fs.read n = some text) (hparse : fs.parse n text = some f) :
    processNative cfg fs n =
      sectionHeader n ++ ((declaredIdents cfg.members f).map (makeTag text)).flatten ++ ['\x0A'] := by
  simp only [processNative, hread, hparse]
  rw [goTags_eq_map, List.append_assoc]

/-- C1 witness: on the file `package m\nvar v1, v2 int\n` the section
consists of exactly one tag per declared name `m`, `v1`, `v2`. -/
theorem c1_witness :
    processNative cfg0 fs0 ("a.go".toList) =
      sectionHeader ("a.go".toList) ++
        ((declaredIdents cfg0.members file0).map (makeTag text0)).flatten ++ ['\x0A'] :=
  c1_every_declared_name_tagged_once cfg0 fs0 ("a.go".toList) text0 file0 rfl rfl

/-- C2: for every tag produced by the syntax-tree extractor, the emitted
record is `LF pattern DEL name SOH line "," offset` where: the pattern is
the literal source text from the start of the identifier's line through
the end of the identifier; the line number is the identifier's 1-based
source line (one more than the line feeds before it); and the offset is
the line start `backToLineStart text id.offs`, which is the byte offset
of the first byte of the physical line containing the identifier (it is
at most the identifier's offset, it is the file start or is preceded by a
line feed, and no line feed lies between it and the identifier). -/
theorem c2_pattern_line_offset_correct (text : List Char) (id : Ident)
    (hid : listSlice text id.offs (id.offs + id.name.length) = id.name) :
    makeTag text id =
      ['\x0A'] ++ listSlice text (backToLineStart text id.offs) (id.offs + id.name.length) ++
        ['\x7F'] ++ id.name ++ ['\x01'] ++ natChars (1 + (text.take id.offs).count '\n') ++
        [','] ++ natChars (backToLineStart text id.offs)
    ∧ backToLineStart text id.offs ≤ id.offs
    ∧ (backToLineStart text id.offs = 0 ∨
        text[backToLineStart text id.offs - 1]? = some '\n')
    ∧ (∀ k, backToLineStart text id.offs ≤ k → k < id.offs → ¬ text[k]? = some '\n') := by
  refine ⟨rfl, backToLineStart_le text id.offs,
    backToLineStart_eq_zero_or_after_nl text id.offs,
    backToLineStart_no_nl text id.offs⟩

/-- C2 witness: the identifier `v2` of `package m\nvar v1, v2 int\n`
(offset 18, line 2) yields the record with pattern `var v1, v2`, line 2
and offset 10 (the start of its line). -/
theorem c2_witness :
    makeTag text0 (Ident.mk ("v2".toList) 18) =
      ['\x0A'] ++ listSlice text0 (backToLineStart text0 18) 20 ++
        ['\x7F'] ++ "v2".toList ++ ['\x01'] ++ natChars (1 + (text0.take 18).count '\n') ++
        [','] ++ natChars (backToLineStart text0 18) :=
  (c2_pattern_line_offset_correct text0 (Ident.mk ("v2".toList) 18) (by decide)).1

/-- C8: for every explicit tag emitted by either extractor, the final
bytes of the tag's pattern are exactly the bytes of the tag's name: the
name is a suffix of the `makeTag` pattern (given that the identifier's
bytes actually occur at its recorded offset), and the `etagsRe` submatch
`m[2]` is a suffix of the matched pattern `m[1]`. -/
theorem c8_pattern_ends_with_name (text : List Char) (id : Ident) (l pat nm : List Char)
    (hid : listSlice text id.offs (id.offs + id.name.length) = id.name)
    (hm : etagsMatch l = some (pat, nm)) :
    id.name <:+ makeTagPattern text id ∧ nm <:+ pat := by
  constructor
  · unfold makeTagPattern
    rw [listSlice_append text (backToLineStart_le text id.offs)
          (Nat.le_add_right id.offs id.name.length), hid]
    exact ⟨listSlice text (backToLineStart text id.offs) id.offs, rfl⟩
  · obtain ⟨⟨pre, hpre⟩, _, _, _⟩ := etagsMatch_shape hm
    exact ⟨pre, hpre.symm⟩

/-- C8 witness: the tree-extractor pattern `package m` ends with `m`, and
the fallback match on line `var v1 int` has pattern `var v1` ending with
name `v1`. -/
theorem c8_witness :
    ("m".toList) <:+ makeTagPattern text0 (Ident.mk ("m".toList) 8) ∧
    ("v1".toList) <:+ ("var v1".toList) :=
  c8_pattern_ends_with_name text0 (Ident.mk ("m".toList) 8) ("var v1 int".toList)
    ("var v1".toList) ("v1".toList) (by decide) (by decide)

/-- C10: for every tag produced by the syntax-tree extractor, the emitted
pattern contains no line-feed byte: the backward scan stops at the
previous newline, and the identifier itself (whose bytes occur at its
recorded offset) contains none. -/
theorem c10_pattern_has_no_linefeed (text : List Char) (id : Ident)
    (hid : listSlice text id.offs (id.offs + id.name.length) = id.name)
    (hname : '\n' ∉ id.name) :
    '\n' ∉ makeTagPattern text id := by
  unfold makeTagPattern
  rw [listSlice_append text (backToLineStart_le text id.offs)
        (Nat.le_add_right id.offs id.name.length), hid]
  intro hmem
  rcases List.mem_append.mp hmem with hm | hm
  · obtain ⟨k, hk1, hk2, hk3⟩ := mem_listSlice text hm
    exact backToLineStart_no_nl text id.offs k hk1 hk2 hk3
  · exact hname hm

/-- C10 witness: the pattern for `v1` in `package m\nvar v1, v2 int\n`
contains no line feed. -/
theorem c10_witness : '\n' ∉ makeTagPattern text0 (Ident.mk ("v1".toList) 14) :=
  c10_pattern_has_no_linefeed text0 (Ident.mk ("v1".toList) 14) (by decide) (by decide)

/-- C5: for a .go file whose text the parser rejects the run does not
abort: the file's section is still produced, via `builtinEtags`, and is
properly terminated.  The tags come one per line, only from lines whose
declaration keyword begins at column 0 (the match is a prefix of the line
and starts with a declaration keyword), each emitted record ends with the
comma and carries no byte-offset field, and a matching line contributes
exactly one record regardless of how many names it declares. -/
theorem c5_parse_failure_fallback (cfg : Config) (fs : FS) (n text : List Char)
    (hread : fs.read n = some text) (hparse : fs.parse n text = none) :
    processNative cfg fs n = sectionHeader n ++ builtinEtags text ++ ['\x0A']
    ∧ builtinEtags text = (((text.splitOn '\x0A').enum).map builtinLine).flatten
    ∧ (∀ i l, builtinLine (i, l) = [] ∨
         ∃ pat nm, etagsMatch l = some (pat, nm) ∧
           builtinLine (i, l) =
             ['\x0A'] ++ pat ++ ['\x7F'] ++ nm ++ ['\x01'] ++ natChars (i + 1) ++ [','])
    ∧ (∀ l pat nm, etagsMatch l = some (pat, nm) →
         pat <+: l ∧ nm ≠ [] ∧ ∃ kw, kw ∈ etagsKeywords ∧ kw <+: pat) := by
  refine ⟨?_, rfl, ?_, ?_⟩
  · simp only [processNative, hread, hparse]
    rw [List.append_assoc]
  · intro i l
    cases hm : etagsMatch l with
    | none => exact Or.inl (by simp [builtinLine, hm])
    | some p =>
      obtain ⟨pat, nm⟩ := p
      exact Or.inr ⟨pat, nm, rfl, by simp [builtinLine, hm]⟩
  · intro l pat nm hm
    obtain ⟨_, h2, h3, h4⟩ := etagsMatch_shape hm
    exact ⟨h2, h3, h4⟩

/-- C5 witness: on `package m\nvar v1, v2 int\n` with a failing parse,
the section is the header, the two fallback records (`package m`, line 1,
and `var v1`, line 2 — one record despite the two names), and the
terminating line feed. -/
theorem c5_witness :
    processNative cfg0 fsParseFail ("a.go".toList) =
      sectionHeader ("a.go".toList) ++ builtinEtags text0 ++ ['\x0A'] :=
  (c5_parse_failure_fallback cfg0 fsParseFail ("a.go".toList) text0 rfl rfl).1

/-- C6: a file whose extension is not .go is never run through the
syntax-tree or pattern-based extractor: the output is exactly the
concatenated sections of the .go files, in input order, followed — when
the non-native batch is non-empty and a delegate program is configured —
by precisely the delegate subprocess's standard output for the single
invocation that receives the whole batch, newline-separated, on its
standard input. -/
theorem c6_delegation_passthrough (cfg : Config) (fs : FS)
    (prog : List (List Char) → List Char → RunResult) (inputs : List (List Char)) :
    (computeTags cfg fs prog inputs).output =
      (((inputs.filter (fun n => pathExt n == ".go".toList)).map (processNative cfg fs)).flatten) ++
      (if !(inputs.filter (fun n => !(pathExt n == ".go".toList))).isEmpty
          && !cfg.systemEtagsCommand.isEmpty
       then runStdout (prog (etagsArgs cfg)
              (List.intercalate ['\x0A'] (inputs.filter (fun n => !(pathExt n == ".go".toList)))))
       else []) :=
  computeTags_output_eq cfg fs prog inputs

/-- C7: when the delegate subprocess fails, the whole run terminates with
`delegateExitStatus st` — the subprocess's exit status when one is
available and nonzero, the fixed nonzero status 1 otherwise — while the
output still contains everything written for prior files plus the
delegate's captured standard output (output is streamed). -/
theorem c7_delegate_failure_is_fatal (cfg : Config) (fs : FS)
    (prog : List (List Char) → List Char → RunResult) (inputs : List (List Char))
    (out errS : List Char) (st : Option Nat)
    (hbatch : (inputs.filter (fun n => !(pathExt n == ".go".toList))).isEmpty = false)
    (hcmd : cfg.systemEtagsCommand.isEmpty = false)
    (hfail : prog (etagsArgs cfg)
        (List.intercalate ['\x0A'] (inputs.filter (fun n => !(pathExt n == ".go".toList)))) =
      RunResult.fail out errS st) :
    computeTags cfg fs prog inputs =
      RunOutcome.mk
        ((((inputs.filter (fun n => pathExt n == ".go".toList)).map (processNative cfg fs)).flatten)
          ++ out)
        (some (delegateExitStatus st))
    ∧ delegateExitStatus st ≠ 0
    ∧ (∀ c, st = some c → c ≠ 0 → delegateExitStatus st = c) := by
  refine ⟨?_, ?_, ?_⟩
  · simp only [computeTags, computeTagsLoop_eq, hbatch, hcmd, Bool.not_false, Bool.and_self,
      if_true, systemEtags, hfail]
  · cases st with
    | none => simp [delegateExitStatus]
    | some c =>
      by_cases hc : c = 0 <;> simp [delegateExitStatus, hc]
  · intro c hst hc
    subst hst
    simp [delegateExitStatus, hc]

/-- C7 witness: a single non-native input with a delegate that writes
`OUT` and exits with status 3 yields the delegate's output and exit
status 3. -/
theorem c7_witness :
    computeTags cfg0 fsUnreadable progFail3 ["a.c".toList] =
      RunOutcome.mk
        (((["a.c".toList].filter (fun n => pathExt n == ".go".toList)).map
            (processNative cfg0 fsUnreadable)).flatten ++ "OUT".toList)
        (some (delegateExitStatus (some 3))) :=
  (c7_delegate_failure_is_fatal cfg0 fsUnreadable progFail3 ["a.c".toList]
    ("OUT".toList) [] (some 3) (by decide) (by decide) rfl).1

/-- C9: the core is deterministic — two runs on the same filename
sequence with the same file contents, parser behavior and delegate
behavior produce identical outcomes (byte-identical output and equal
exit condition). -/
theorem c9_two_runs_byte_identical (cfg cfg' : Config) (fs fs' : FS)
    (prog prog' : List (List Char) → List Char → RunResult) (inputs inputs' : List (List Char))
    (hcfg : cfg = cfg') (hfs : fs = fs') (hprog : prog = prog') (hinputs : inputs = inputs') :
    computeTags cfg fs prog inputs = computeTags cfg' fs' prog' inputs' := by
  subst hcfg hfs hprog hinputs
  rfl

/-- C9 witness: two identical runs on `a.go` agree. -/
theorem c9_witness :
    computeTags cfg0 fs0 progSilent ["a.go".toList] =
      computeTags cfg0 fs0 progSilent ["a.go".toList] :=
  c9_two_runs_byte_identical cfg0 cfg0 fs0 fs0 progSilent progSilent
    ["a.go".toList] ["a.go".toList] rfl rfl rfl rfl

/-- Helper for the amended section-framing claim: when every section
starts with its header and contains no further form feed, the form-feed
count of the concatenated sections equals the number of files. -/
theorem count_formfeed_sections (cfg : Config) (fs : FS) :
    ∀ inputs : List (List Char),
      (∀ n ∈ inputs, '\x0C' ∉ n ∧
        ∀ body, processNative cfg fs n = sectionHeader n ++ body → '\x0C' ∉ body) →
      ((inputs.map (processNative cfg fs)).flatten).count '\x0C' = inputs.length := by
  intro inputs
  induction inputs with
  | nil => intro _; rfl
  | cons n rest ih =>
    intro h
    obtain ⟨hn, hbody⟩ := h n (List.mem_cons_self n rest)
    have hrest := ih (fun m hm => h m (List.mem_cons_of_mem n hm))
    obtain ⟨body, hb⟩ : ∃ body, processNative cfg fs n = sectionHeader n ++ body := ⟨_, rfl⟩
    have h1 : (sectionHeader n).count '\x0C' = 1 := by
      simp [sectionHeader, List.count_append, List.count_cons,
        List.count_eq_zero.mpr hn]
    have h2 : body.count '\x0C' = 0 := List.count_eq_zero.mpr (hbody body hb)
    simp only [List.map_cons, List.flatten_cons, List.count_append, hb, h1, h2, hrest,
      List.length_cons]
    omega

/-- C3 counterexample: one input filename whose extension is not `.go`,
with delegation disabled, produces an empty output: it contains zero
section headers, not one, so the output does not contain exactly N
section headers for N input filenames. -/
theorem c3_counterexample_nonnative_input :
    (computeTags cfgNoDelegate fsUnreadable progSilent ["a.c".toList]).output = [] ∧
    (["a.c".toList] : List (List Char)).length = 1 := by
  exact ⟨rfl, rfl⟩

/-- C3 amended: for N native (`.go`) input filenames the output is the
concatenation of the per-file sections in the supplied order; every
section begins with its header `FF LF filename ",0"`; every section of a
file whose contents could be read ends with the terminating line feed
(the blank line when the section is split on line breaks); and when no
form feed occurs in the filenames or section bodies the output contains
exactly N form-feed section markers. -/
theorem c3_section_framing (cfg : Config) (fs : FS)
    (prog : List (List Char) → List Char → RunResult) (inputs : List (List Char))
    (hext : ∀ n ∈ inputs, pathExt n = ".go".toList) :
    (computeTags cfg fs prog inputs).output = (inputs.map (processNative cfg fs)).flatten
    ∧ (∀ n ∈ inputs, ∃ body, processNative cfg fs n = sectionHeader n ++ body)
    ∧ (∀ n text, n ∈ inputs → fs.read n = some text →
         ∃ body, processNative cfg fs n = sectionHeader n ++ body ++ ['\x0A'])
    ∧ ((∀ n ∈ inputs, '\x0C' ∉ n ∧
          ∀ body, processNative cfg fs n = sectionHeader n ++ body → '\x0C' ∉ body) →
        (computeTags cfg fs prog inputs).output.count '\x0C' = inputs.length) := by
  have hfilter : inputs.filter (fun n => pathExt n == ".go".toList) = inputs :=
    List.filter_eq_self.mpr (fun n hn => beq_iff_eq.mpr (hext n hn))
  have hnone : inputs.filter (fun n => !(pathExt n == ".go".toList)) = [] :=
    List.filter_eq_nil_iff.mpr (fun n hn => by simp [hext n hn])
  have hout : (computeTags cfg fs prog inputs).output = (inputs.map (processNative cfg fs)).flatten := by
    rw [computeTags_output_eq, hfilter, hnone]
    simp
  refine ⟨hout, ?_, ?_, ?_⟩
  · intro n _
    exact ⟨_, rfl⟩
  · intro n text _ hr
    cases hp : fs.parse n text with
    | some f =>
      exact ⟨goTags cfg.members text f, by simp [processNative, hr, hp]⟩
    | none =>
      exact ⟨builtinEtags text, by simp [processNative, hr, hp]⟩
  · intro hFF
    rw [hout]
    exact count_formfeed_sections cfg fs inputs hFF

/-- C3 witness: a single readable, parseable `.go` input yields exactly
its one section. -/
theorem c3_witness :
    (computeTags cfg0 fs0 progSilent ["a.go".toList]).output =
      (["a.go".toList].map (processNative cfg0 fs0)).flatten :=
  (c3_section_framing cfg0 fs0 progSilent ["a.go".toList] (by decide)).1

/-- C4: evaluation at the failing input.  Two unreadable `.go` files:
the run continues past the first file (both section headers appear, and
the run finishes normally), but each skipped file's section consists of
the header only — the terminating line feed (the section footer required
by the claim and by the output grammar documented in the source) is not
emitted, so the section ends with the `0` of `",0"`, not with a line
feed. -/
theorem c4_unreadable_file_missing_footer :
    computeTags cfg0 fsUnreadable progSilent ["a.go".toList, "b.go".toList] =
      RunOutcome.mk (sectionHeader ("a.go".toList) ++ sectionHeader ("b.go".toList)) none
    ∧ (computeTags cfg0 fsUnreadable progSilent ["a.go".toList, "b.go".toList]).output.getLast?
        = some '0' := by
  exact ⟨rfl, rfl⟩

end Gotags
